import Mathlib

/-!
Shallow embedding of the BPE tokenizer from `bpe/tokenizer.go`
(repository zhubert/bpe-tokenizer) together with proofs of the
specification's claims about it.

Modelling conventions:
* Go `[]byte` values are lists of naturals; every actual byte is `< 256`,
  which appears as an explicit hypothesis where a claim needs it.
* The Go map `map[[2]int]int` used for pair counting is modelled as the
  total function `ℕ × ℕ → ℕ`, with "key absent" identified with count `0`.
  This is faithful: in the Go code `decrementPair` deletes every entry
  whose count would reach `0` or less, and entries are only created by
  increments, so the live map never stores a value `≤ 0`; reading an
  absent key in Go yields `0`.  Under this identification the Go
  `pairCounts[pair]--` followed by delete-if-nonpositive is exactly
  truncated subtraction on ℕ.
* Go's `for ... range` over a map iterates in an unspecified order, so
  `findMaxPair` returns an arbitrary pair realising the maximum count.
  Training is therefore modelled as the inductive relation `TrainLoop`
  whose `step` constructor may choose any maximising pair, covering every
  behaviour the Go scheduler/map seed can produce.
-/

namespace BPE

/-- Pair-count map: `map[[2]int]int` with absence identified with 0. -/
abbrev PairCount := ℕ × ℕ → ℕ

/-- Embedding of the Go idiom `pairCounts[pair]++`. -/
def incrementPair (pairCounts : PairCount) (pair : ℕ × ℕ) : PairCount :=
  fun q => if q = pair then pairCounts q + 1 else pairCounts q

/-- Embedding of `decrementPair` (tokenizer.go:193-198): decrement and
delete when the count reaches zero or less, i.e. truncated subtraction. -/
def decrementPair (pairCounts : PairCount) (pair : ℕ × ℕ) : PairCount :=
  fun q => if q = pair then pairCounts q - 1 else pairCounts q

/-- Embedding of `countPairs` (tokenizer.go:123-132): count every adjacent
pair of the token sequence. -/
def countPairs : List ℕ → PairCount
  | [] => fun _ => 0
  | [_] => fun _ => 0
  | x :: y :: rest => incrementPair (countPairs (y :: rest)) (x, y)

/-- Embedding of `applyMerge` (tokenizer.go:202-218): one left-to-right
pass replacing each adjacent occurrence of `(first, second)` by `merged`,
consuming both tokens of a match. -/
def applyMerge : List ℕ → ℕ → ℕ → ℕ → List ℕ
  | x :: y :: rest, first, second, merged =>
    if x = first ∧ y = second then
      merged :: applyMerge rest first second merged
    else
      x :: applyMerge (y :: rest) first second merged
  | tokens, _, _, _ => tokens

/-- The count updates performed at one merge site inside
`applyMergeIncremental` (tokenizer.go:156-178): fix the left-neighbour
pair (against the already-rewritten output, whose last element is
`prev`), remove the merged-away pair, and fix the right-neighbour pair
(against the original input, `rest` being the tokens after the site). -/
def mergeSiteUpdate (pairCounts : PairCount) (prev : Option ℕ)
    (first second merged : ℕ) (rest : List ℕ) : PairCount :=
  let m1 := match prev with
    | none => pairCounts
    | some leftNeighbor =>
        incrementPair (decrementPair pairCounts (leftNeighbor, first)) (leftNeighbor, merged)
  let m2 := decrementPair m1 (first, second)
  match rest with
  | [] => m2
  | rightNeighbor :: _ =>
      incrementPair (decrementPair m2 (second, rightNeighbor)) (merged, rightNeighbor)

/-- Worker for `applyMergeIncremental`; `prev` is the last element of the
`result` slice built so far (`none` while it is empty), mirroring the Go
reads of `result[len(result)-1]`. -/
def applyMergeIncrementalAux : Option ℕ → List ℕ → ℕ → ℕ → ℕ → PairCount → List ℕ × PairCount
  | _, [], _, _, _, m => ([], m)
  | _, [x], _, _, _, m => ([x], m)
  | prev, x :: y :: rest, first, second, merged, m =>
    if x = first ∧ y = second then
      let r := applyMergeIncrementalAux (some merged) rest first second merged
        (mergeSiteUpdate m prev first second merged rest)
      (merged :: r.1, r.2)
    else
      let r := applyMergeIncrementalAux (some x) (y :: rest) first second merged m
      (x :: r.1, r.2)

/-- Embedding of `applyMergeIncremental` (tokenizer.go:151-190): same scan
as `applyMerge` but also updating the pair counts at each merge site.
Returns the rewritten tokens and the updated map. -/
def applyMergeIncremental (tokens : List ℕ) (first second merged : ℕ)
    (pairCounts : PairCount) : List ℕ × PairCount :=
  applyMergeIncrementalAux none tokens first second merged pairCounts

/-- Embedding of the `Merge` struct (tokenizer.go:21-25). -/
structure Merge where
  First : ℕ
  Second : ℕ
  Result : ℕ
deriving DecidableEq

/-- Embedding of the `Tokenizer` struct (tokenizer.go:8-18). -/
structure Tokenizer where
  Vocabulary : ℕ → Option (List ℕ)
  Merges : List Merge
  VocabSize : ℕ

/-- Embedding of `New` (tokenizer.go:28-41): byte-level vocabulary. -/
def New : Tokenizer where
  Vocabulary := fun i => if i < 256 then some [i] else none
  Merges := []
  VocabSize := 256

/-- One iteration of the body of `Train`'s loop acting on the tokenizer
(tokenizer.go:66-86): allocate `newTokenID = VocabSize`, store the
concatenated byte expansion, record the merge, bump `VocabSize`.
Reading a missing vocabulary key in Go yields `nil`, hence `getD []`. -/
def mergeStep (t : Tokenizer) (a b : ℕ) : Tokenizer where
  Vocabulary := fun i =>
    if i = t.VocabSize then some ((t.Vocabulary a).getD [] ++ (t.Vocabulary b).getD [])
    else t.Vocabulary i
  Merges := t.Merges ++ [⟨a, b, t.VocabSize⟩]
  VocabSize := t.VocabSize + 1

/-- Embedding of `Encode` (tokenizer.go:95-108): byte-level tokens, then
replay every merge rule in table order. -/
def Encode (t : Tokenizer) (text : List ℕ) : List ℕ :=
  t.Merges.foldl (fun tokens mg => applyMerge tokens mg.First mg.Second mg.Result) text

/-- Embedding of `Decode` (tokenizer.go:111-119): append each known id's
byte expansion; ids absent from the vocabulary contribute nothing. -/
def Decode (t : Tokenizer) (tokens : List ℕ) : List ℕ :=
  tokens.foldl (fun result id => result ++ (t.Vocabulary id).getD []) []

/-- The training loop of `Train` (tokenizer.go:58-89) as a step relation.
`TrainLoop t tokens m target t' tokens' m'` holds when the loop, started
with tokenizer `t`, working sequence `tokens` and pair-count map `m`, can
finish in the state `(t', tokens', m')`.  The `step` constructor permits
any pair realising the maximum count, which is exactly the set of pairs
`findMaxPair` (tokenizer.go:135-147) can return under Go's unspecified
map iteration order; `findMaxPair` returns count 0 iff the map is empty,
i.e. (absence ≡ 0) iff the map is identically zero. -/
inductive TrainLoop : Tokenizer → List ℕ → PairCount → ℕ → Tokenizer → List ℕ → PairCount → Prop where
  | done {t : Tokenizer} {tokens : List ℕ} {m : PairCount} {target : ℕ} :
      target ≤ t.VocabSize → TrainLoop t tokens m target t tokens m
  | exhausted {t : Tokenizer} {tokens : List ℕ} {m : PairCount} {target : ℕ} :
      t.VocabSize < target → (∀ p, m p = 0) → TrainLoop t tokens m target t tokens m
  | step {t : Tokenizer} {tokens : List ℕ} {m : PairCount} {target : ℕ}
      {a b : ℕ} {t' : Tokenizer} {tokens' : List ℕ} {m' : PairCount} :
      t.VocabSize < target → 0 < m (a, b) → (∀ q, m q ≤ m (a, b)) →
      TrainLoop (mergeStep t a b)
        (applyMergeIncremental tokens a b t.VocabSize m).1
        (applyMergeIncremental tokens a b t.VocabSize m).2
        target t' tokens' m' →
      TrainLoop t tokens m target t' tokens' m'

/-- Embedding of `Train` (tokenizer.go:45-92).  `TrainGo t text target e t'`
holds when the call can return error `e` (`none` = nil) leaving the
tokenizer in state `t'`.  The invalid-target check precedes any state
change, so on error the tokenizer is returned unchanged. -/
inductive TrainGo : Tokenizer → List ℕ → ℕ → Option String → Tokenizer → Prop where
  | invalid {t : Tokenizer} {text : List ℕ} {target : ℕ} :
      target ≤ 256 →
      TrainGo t text target (some "target vocabulary size must be > 256") t
  | valid {t : Tokenizer} {text : List ℕ} {target : ℕ}
      {t' : Tokenizer} {tokens' : List ℕ} {m' : PairCount} :
      256 < target →
      TrainLoop t text (countPairs text) target t' tokens' m' →
      TrainGo t text target none t'

/-- Tokenizers reachable from `New` by successful `Train` calls on byte
input (Go's `[]byte` guarantees every element is `< 256`). -/
inductive Reachable : Tokenizer → Prop where
  | base : Reachable New
  | train {t : Tokenizer} {text : List ℕ} {target : ℕ} {t' : Tokenizer} :
      Reachable t → (∀ x ∈ text, x < 256) → TrainGo t text target none t' → Reachable t'

/-- Well-formedness of a merge table whose first rule was created when the
vocabulary had size `base`: rule `k` results in id `base + k` and merges
strictly smaller ids. -/
def MergesOk : ℕ → List Merge → Prop
  | _, [] => True
  | base, mg :: rest =>
      mg.Result = base ∧ mg.First < base ∧ mg.Second < base ∧ MergesOk (base + 1) rest

/-- Structural invariants of every reachable tokenizer. -/
structure WF (t : Tokenizer) : Prop where
  size_ge : 256 ≤ t.VocabSize
  size_eq : t.VocabSize = 256 + t.Merges.length
  byte_vocab : ∀ i, i < 256 → t.Vocabulary i = some [i]
  present : ∀ i, i < t.VocabSize → ∃ bs, t.Vocabulary i = some bs
  absent : ∀ i, t.VocabSize ≤ i → t.Vocabulary i = none
  merges_ok : MergesOk 256 t.Merges
  merge_vocab : ∀ mg ∈ t.Merges,
    t.Vocabulary mg.Result = some ((t.Vocabulary mg.First).getD [] ++ (t.Vocabulary mg.Second).getD [])

/-- The corpus `b"aaabdaaabac"` of the spec's concrete training scenario. -/
def sampleText : List ℕ := [97, 97, 97, 98, 100, 97, 97, 97, 98, 97, 99]

/-- Tokenizer after the forced first merge `(97, 97) ↦ 256`. -/
def T1 : Tokenizer := mergeStep New 97 97

/-- Tokenizer after a second merge `(256, 97) ↦ 257`. -/
def T2 : Tokenizer := mergeStep T1 256 97

/-- Tokenizer after a third merge `(257, 98) ↦ 258`. -/
def T3 : Tokenizer := mergeStep T2 257 98

/-- Tokenizer after a fourth merge `(258, 100) ↦ 259`. -/
def T4 : Tokenizer := mergeStep T3 258 100

/-! Basic lemmas about the embedded functions. -/

lemma incrementPair_apply (m : PairCount) (p q : ℕ × ℕ) :
    incrementPair m p q = m q + (if q = p then 1 else 0) := by
  unfold incrementPair; split <;> simp

lemma decrementPair_apply (m : PairCount) (p q : ℕ × ℕ) :
    decrementPair m p q = m q - (if q = p then 1 else 0) := by
  unfold decrementPair; split <;> simp

@[simp] lemma countPairs_nil (q : ℕ × ℕ) : countPairs [] q = 0 := rfl

@[simp] lemma countPairs_single (x : ℕ) (q : ℕ × ℕ) : countPairs [x] q = 0 := rfl

lemma countPairs_cons₂ (x y : ℕ) (rest : List ℕ) (q : ℕ × ℕ) :
    countPairs (x :: y :: rest) q = countPairs (y :: rest) q + (if q = (x, y) then 1 else 0) := by
  show incrementPair (countPairs (y :: rest)) (x, y) q = _
  exact incrementPair_apply _ _ _

@[simp] lemma applyMerge_nil (first second merged : ℕ) :
    applyMerge [] first second merged = [] := rfl

@[simp] lemma applyMerge_single (x first second merged : ℕ) :
    applyMerge [x] first second merged = [x] := rfl

lemma applyMerge_cons₂ (x y : ℕ) (rest : List ℕ) (first second merged : ℕ) :
    applyMerge (x :: y :: rest) first second merged =
      if x = first ∧ y = second then
        merged :: applyMerge rest first second merged
      else
        x :: applyMerge (y :: rest) first second merged := rfl

@[simp] lemma applyMergeIncrementalAux_nil (prev : Option ℕ) (first second merged : ℕ) (m : PairCount) :
    applyMergeIncrementalAux prev [] first second merged m = ([], m) := rfl

@[simp] lemma applyMergeIncrementalAux_single (prev : Option ℕ) (x first second merged : ℕ) (m : PairCount) :
    applyMergeIncrementalAux prev [x] first second merged m = ([x], m) := rfl

lemma applyMergeIncrementalAux_cons₂ (prev : Option ℕ) (x y : ℕ) (rest : List ℕ)
    (first second merged : ℕ) (m : PairCount) :
    applyMergeIncrementalAux prev (x :: y :: rest) first second merged m =
      if x = first ∧ y = second then
        let r := applyMergeIncrementalAux (some merged) rest first second merged
          (mergeSiteUpdate m prev first second merged rest)
        (merged :: r.1, r.2)
      else
        let r := applyMergeIncrementalAux (some x) (y :: rest) first second merged m
        (x :: r.1, r.2) := rfl

/-- Induction principle following the two-token scan pattern shared by
`countPairs`, `applyMerge` and `applyMergeIncrementalAux`. -/
lemma pairList_induction {P : List ℕ → Prop} (h0 : P []) (h1 : ∀ x, P [x])
    (h2 : ∀ x y rest, P rest → P (y :: rest) → P (x :: y :: rest)) : ∀ l, P l := by
  have key : ∀ n l, List.length l ≤ n → P l := by
    intro n
    induction n with
    | zero =>
      intro l hl
      cases l with
      | nil => exact h0
      | cons x l' => simp at hl
    | succ n ih =>
      intro l hl
      cases l with
      | nil => exact h0
      | cons x l' =>
        cases l' with
        | nil => exact h1 x
        | cons y rest =>
          refine h2 x y rest (ih rest ?_) (ih (y :: rest) ?_) <;> simp at hl ⊢ <;> omega
  exact fun l => key l.length l le_rfl

/-- The rewritten sequences produced by the two merge appliers coincide:
the incremental applier differs from `applyMerge` only in its map result. -/
lemma applyMergeIncrementalAux_fst (first second merged : ℕ) :
    ∀ tokens (prev : Option ℕ) (m : PairCount),
      (applyMergeIncrementalAux prev tokens first second merged m).1 =
        applyMerge tokens first second merged := by
  refine pairList_induction (by simp) (by simp) ?_
  intro x y rest ih1 ih2 prev m
  rw [applyMergeIncrementalAux_cons₂, applyMerge_cons₂]
  by_cases h : x = first ∧ y = second
  · simp only [if_pos h]
    exact congrArg (merged :: ·) (ih1 _ _)
  · simp only [if_neg h]
    exact congrArg (x :: ·) (ih2 _ _)

lemma applyMergeIncremental_fst (tokens : List ℕ) (first second merged : ℕ) (m : PairCount) :
    (applyMergeIncremental tokens first second merged m).1 = applyMerge tokens first second merged :=
  applyMergeIncrementalAux_fst first second merged tokens none m

/-- `countPairs` counts occurrences in the list of adjacent pairs. -/
lemma countPairs_eq_count : ∀ (l : List ℕ) (q : ℕ × ℕ),
    countPairs l q = (l.zip l.tail).count q := by
  refine pairList_induction (by simp) (by simp) ?_
  intro x y rest ih1 ih2 q
  rw [countPairs_cons₂, ih2]
  show _ = List.count q ((x, y) :: (y :: rest).zip rest)
  rw [List.count_cons, List.tail_cons]
  by_cases hq : q = (x, y)
  · simp [hq]
  · simp [hq, show ¬((x, y) = q) from fun h => hq h.symm]

/-- Splitting `countPairs` over an append: internal pairs of each part
plus the bridging pair between the last element of the first part and the
first element of the second. -/
lemma countPairs_append : ∀ (l₁ l₂ : List ℕ) (q : ℕ × ℕ),
    countPairs (l₁ ++ l₂) q = countPairs l₁ q + countPairs l₂ q +
      (match l₁.getLast?, l₂.head? with
       | some a, some b => if q = (a, b) then 1 else 0
       | _, _ => 0) := by
  refine pairList_induction ?_ ?_ ?_
  · intro l₂ q; simp
  · intro x l₂ q
    cases l₂ with
    | nil => simp
    | cons b l₂' =>
      show countPairs (x :: b :: l₂') q = _
      rw [countPairs_cons₂]
      simp only [List.getLast?_singleton, List.head?_cons, countPairs_single]
      omega
  · intro x y rest ih1 ih2 l₂ q
    show countPairs (x :: y :: (rest ++ l₂)) q = _
    rw [countPairs_cons₂]
    have hyr : y :: (rest ++ l₂) = (y :: rest) ++ l₂ := rfl
    rw [hyr, ih2 l₂ q, countPairs_cons₂, List.getLast?_cons_cons]
    omega

/-- Core correctness of the per-site count update: if the map is exactly
the adjacency-pair count of the virtual sequence `res ++ first :: second
:: rest` (output built so far plus remaining input), then after the
update it is exactly that of `res ++ merged :: rest`. -/
lemma mergeSiteUpdate_counts : ∀ (res rest : List ℕ) (first second merged : ℕ),
    mergeSiteUpdate (countPairs (res ++ first :: second :: rest)) res.getLast?
        first second merged rest
      = countPairs (res ++ merged :: rest) := by
  intro res rest f s mg
  funext q
  rcases res.eq_nil_or_concat' with rfl | ⟨L, l, rfl⟩
  · cases rest with
    | nil =>
      show decrementPair (countPairs [f, s]) (f, s) q = countPairs [mg] q
      rw [decrementPair_apply, countPairs_cons₂]
      simp only [countPairs_single]
      omega
    | cons r rest' =>
      show incrementPair
          (decrementPair (decrementPair (countPairs (f :: s :: r :: rest')) (f, s)) (s, r))
          (mg, r) q
        = countPairs (mg :: r :: rest') q
      rw [incrementPair_apply, decrementPair_apply, decrementPair_apply,
        countPairs_cons₂ f s, countPairs_cons₂ s r, countPairs_cons₂ mg r]
      omega
  · have hl : (L ++ [l]).getLast? = some l := List.getLast?_concat L
    rw [hl]
    cases rest with
    | nil =>
      show decrementPair
          (incrementPair
            (decrementPair (countPairs ((L ++ [l]) ++ [f, s])) (l, f)) (l, mg))
          (f, s) q
        = countPairs ((L ++ [l]) ++ [mg]) q
      rw [decrementPair_apply, incrementPair_apply, decrementPair_apply,
        countPairs_append (L ++ [l]) [f, s], countPairs_append (L ++ [l]) [mg], hl]
      simp only [List.head?_cons]
      rw [countPairs_cons₂]
      simp only [countPairs_single]
      omega
    | cons r rest' =>
      show incrementPair
          (decrementPair
            (decrementPair
              (incrementPair
                (decrementPair (countPairs ((L ++ [l]) ++ f :: s :: r :: rest')) (l, f))
                (l, mg))
              (f, s))
            (s, r))
          (mg, r) q
        = countPairs ((L ++ [l]) ++ mg :: r :: rest') q
      rw [incrementPair_apply, decrementPair_apply, decrementPair_apply,
        incrementPair_apply, decrementPair_apply,
        countPairs_append (L ++ [l]) (f :: s :: r :: rest'),
        countPairs_append (L ++ [l]) (mg :: r :: rest'), hl]
      simp only [List.head?_cons]
      rw [countPairs_cons₂ f s, countPairs_cons₂ s r, countPairs_cons₂ mg r]
      omega

/-- Main invariant of the incremental applier: starting from the exact
adjacency counts of `res ++ tokens` (with `res` the output built so far),
the scan returns the exact adjacency counts of `res ++ output`. -/
lemma applyMergeIncrementalAux_snd (first second merged : ℕ) :
    ∀ (tokens res : List ℕ) (m : PairCount), m = countPairs (res ++ tokens) →
      (applyMergeIncrementalAux res.getLast? tokens first second merged m).2 =
        countPairs (res ++ (applyMergeIncrementalAux res.getLast? tokens first second merged m).1) := by
  refine pairList_induction ?_ ?_ ?_
  · intro res m hm
    simpa using hm
  · intro x res m hm
    simpa using hm
  · intro x y rest ih1 ih2 res m hm
    rw [applyMergeIncrementalAux_cons₂]
    by_cases h : x = first ∧ y = second
    · obtain ⟨rfl, rfl⟩ := h
      simp only [if_pos (And.intro rfl rfl)]
      have hm3 : mergeSiteUpdate m res.getLast? x y merged rest =
          countPairs ((res ++ [merged]) ++ rest) := by
        rw [hm, mergeSiteUpdate_counts, List.append_assoc]
        rfl
      have hlast : (res ++ [merged]).getLast? = some merged := List.getLast?_concat res
      have key := ih1 (res ++ [merged]) (mergeSiteUpdate m res.getLast? x y merged rest) hm3
      rw [hlast] at key
      rw [key, List.append_assoc]
      rfl
    · simp only [if_neg h]
      have hm' : m = countPairs ((res ++ [x]) ++ (y :: rest)) := by
        rw [hm, List.append_assoc]
        rfl
      have hlast : (res ++ [x]).getLast? = some x := List.getLast?_concat res
      have key := ih2 (res ++ [x]) m hm'
      rw [hlast] at key
      rw [key, List.append_assoc]
      rfl

/-- The incremental applier started from the exact pair counts of its
input returns the exact pair counts of its output. -/
lemma applyMergeIncremental_counts (tokens : List ℕ) (first second merged : ℕ) :
    (applyMergeIncremental tokens first second merged (countPairs tokens)).2 =
      countPairs (applyMergeIncremental tokens first second merged (countPairs tokens)).1 :=
  applyMergeIncrementalAux_snd first second merged tokens [] (countPairs tokens) rfl

/-! Helpers about pair counts. -/

/-- A pair counted positively occurs among the adjacent pairs. -/
lemma mem_zip_of_countPairs_pos {l : List ℕ} {q : ℕ × ℕ} (h : 0 < countPairs l q) :
    q ∈ l.zip l.tail := by
  rw [countPairs_eq_count] at h
  exact List.count_pos_iff.mp h

/-- To bound every pair's count it is enough to bound the counts of the
pairs actually occurring. -/
lemma countPairs_le_all (l : List ℕ) (n : ℕ)
    (h : ∀ q ∈ l.zip l.tail, countPairs l q ≤ n) : ∀ q, countPairs l q ≤ n := by
  intro q
  by_cases hq : q ∈ l.zip l.tail
  · exact h q hq
  · rw [countPairs_eq_count, List.count_eq_zero_of_not_mem hq]
    exact Nat.zero_le n

/-- A pair whose count reaches a positive bound attained only at `p` must
be `p`; the hypothesis ranges only over the finitely many adjacent pairs. -/
lemma countPairs_ge_eq (l : List ℕ) (n : ℕ) (p : ℕ × ℕ) (hn : 0 < n)
    (h : ∀ q ∈ l.zip l.tail, n ≤ countPairs l q → q = p) :
    ∀ q, n ≤ countPairs l q → q = p := by
  intro q hq
  exact h q (mem_zip_of_countPairs_pos (Nat.lt_of_lt_of_le hn hq)) hq

/-- Both components of a positively counted pair occur in the sequence. -/
lemma countPairs_pos_mem {l : List ℕ} {a b : ℕ} (h : 0 < countPairs l (a, b)) :
    a ∈ l ∧ b ∈ l := by
  have hz := mem_zip_of_countPairs_pos h
  have hab := List.of_mem_zip hz
  exact ⟨hab.1, List.mem_of_mem_tail hab.2⟩

/-- The head pair of a sequence of length at least two is counted. -/
lemma countPairs_head_pos (x y : ℕ) (rest : List ℕ) :
    0 < countPairs (x :: y :: rest) (x, y) := by
  rw [countPairs_cons₂]
  simp

/-- A sequence whose pair counts are all zero has length at most one. -/
lemma length_le_one_of_countPairs_zero {l : List ℕ}
    (h : ∀ p, countPairs l p = 0) : l.length ≤ 1 := by
  cases l with
  | nil => simp
  | cons x l' =>
    cases l' with
    | nil => simp
    | cons y rest =>
      have := countPairs_head_pos x y rest
      rw [h (x, y)] at this
      exact absurd this (by simp)

/-- One merge pass at most halves the sequence length (each loop
iteration consumes one or two tokens and emits exactly one). -/
lemma applyMerge_length (first second merged : ℕ) :
    ∀ tokens : List ℕ, tokens.length ≤ 2 * (applyMerge tokens first second merged).length := by
  refine pairList_induction (by simp) (by simp) ?_
  intro x y rest ih1 ih2
  rw [applyMerge_cons₂]
  by_cases h : x = first ∧ y = second
  · simp only [if_pos h, List.length_cons]
    omega
  · simp only [if_neg h, List.length_cons]
    have := ih2
    simp only [List.length_cons] at this
    omega

/-- Every token emitted by `applyMerge` is an input token or the merged id. -/
lemma mem_applyMerge (first second merged : ℕ) :
    ∀ tokens : List ℕ, ∀ x ∈ applyMerge tokens first second merged,
      x ∈ tokens ∨ x = merged := by
  refine pairList_induction (by simp) (by simp) ?_
  intro x y rest ih1 ih2 z hz
  rw [applyMerge_cons₂] at hz
  by_cases h : x = first ∧ y = second
  · rw [if_pos h] at hz
    rcases List.mem_cons.mp hz with rfl | hz'
    · exact Or.inr rfl
    · rcases ih1 z hz' with hmem | rfl
      · exact Or.inl (by simp [hmem])
      · exact Or.inr rfl
  · rw [if_neg h] at hz
    rcases List.mem_cons.mp hz with rfl | hz'
    · exact Or.inl (by simp)
    · rcases ih2 z hz' with hmem | rfl
      · exact Or.inl (by simp [List.mem_cons.mp hmem])
      · exact Or.inr rfl

/-! Helpers about `Decode` and `Encode`. -/

lemma foldl_append_accum (g : ℕ → List ℕ) :
    ∀ (l : List ℕ) (acc : List ℕ),
      l.foldl (fun a i => a ++ g i) acc = acc ++ l.foldl (fun a i => a ++ g i) [] := by
  intro l
  induction l with
  | nil => simp
  | cons x l ih =>
    intro acc
    show (l.foldl (fun a i => a ++ g i) (acc ++ g x)) =
      acc ++ l.foldl (fun a i => a ++ g i) ([] ++ g x)
    rw [ih (acc ++ g x), ih ([] ++ g x)]
    simp

lemma Decode_cons (t : Tokenizer) (id : ℕ) (rest : List ℕ) :
    Decode t (id :: rest) = (t.Vocabulary id).getD [] ++ Decode t rest := by
  show (rest.foldl (fun a i => a ++ (t.Vocabulary i).getD []) ([] ++ (t.Vocabulary id).getD [])) = _
  rw [foldl_append_accum]
  simp [Decode]

/-- Decoding a pure byte sequence under a byte-identity vocabulary. -/
lemma Decode_byteList (t : Tokenizer) (hv : ∀ i, i < 256 → t.Vocabulary i = some [i]) :
    ∀ b : List ℕ, (∀ x ∈ b, x < 256) → Decode t b = b := by
  intro b
  induction b with
  | nil => intro _; rfl
  | cons x rest ih =>
    intro hb
    rw [Decode_cons, hv x (hb x (by simp)), ih (fun z hz => hb z (by simp [hz]))]
    rfl

/-- Applying a merge rule whose result id expands to the concatenation of
its operands' expansions does not change the decoding. -/
lemma Decode_applyMerge (t : Tokenizer) (first second merged : ℕ)
    (h : t.Vocabulary merged = some ((t.Vocabulary first).getD [] ++ (t.Vocabulary second).getD [])) :
    ∀ tokens : List ℕ, Decode t (applyMerge tokens first second merged) = Decode t tokens := by
  refine pairList_induction (by simp) (by simp) ?_
  intro x y rest ih1 ih2
  rw [applyMerge_cons₂]
  by_cases hxy : x = first ∧ y = second
  · obtain ⟨rfl, rfl⟩ := hxy
    rw [if_pos (And.intro rfl rfl), Decode_cons, h, Decode_cons, Decode_cons, ih1]
    simp
  · rw [if_neg hxy, Decode_cons, Decode_cons, ih2]

/-! Helpers about the merge table shape. -/

lemma MergesOk_getElem : ∀ (L : List Merge) (base : ℕ), MergesOk base L →
    ∀ (k : ℕ) (mg : Merge), L[k]? = some mg →
      mg.Result = base + k ∧ mg.First < base + k ∧ mg.Second < base + k := by
  intro L
  induction L with
  | nil =>
    intro base _ k mg hmg
    simp at hmg
  | cons m0 rest ih =>
    intro base hok k mg hmg
    obtain ⟨hres, hf, hs, hrest⟩ := hok
    cases k with
    | zero =>
      rw [List.getElem?_cons_zero] at hmg
      obtain rfl := Option.some.inj hmg
      exact ⟨by omega, by omega, by omega⟩
    | succ k =>
      rw [List.getElem?_cons_succ] at hmg
      have h := ih (base + 1) hrest k mg hmg
      exact ⟨by omega, by omega, by omega⟩

lemma MergesOk_append : ∀ (L : List Merge) (base : ℕ), MergesOk base L →
    ∀ mg : Merge, mg.Result = base + L.length → mg.First < base + L.length →
      mg.Second < base + L.length → MergesOk base (L ++ [mg]) := by
  intro L
  induction L with
  | nil =>
    intro base _ mg h1 h2 h3
    exact ⟨by simpa using h1, by simpa using h2, by simpa using h3, trivial⟩
  | cons m0 rest ih =>
    intro base hok mg h1 h2 h3
    obtain ⟨hres, hf, hs, hrest⟩ := hok
    refine ⟨hres, hf, hs, ?_⟩
    refine ih (base + 1) hrest mg ?_ ?_ ?_ <;> simp only [List.length_cons] at h1 h2 h3 <;> omega

/-- One merge step preserves well-formedness when the merged pair's ids
lie inside the current vocabulary. -/
lemma wf_mergeStep {t : Tokenizer} (hwf : WF t) {a b : ℕ}
    (ha : a < t.VocabSize) (hb : b < t.VocabSize) : WF (mergeStep t a b) := by
  obtain ⟨h256, hsz, hbyte, hpres, habs, hmok, hmv⟩ := hwf
  refine ⟨?_, ?_, ?_, ?_, ?_, ?_, ?_⟩
  · simp only [mergeStep]
    omega
  · simp only [mergeStep, List.length_append, List.length_cons, List.length_nil]
    omega
  · intro i hi
    simp only [mergeStep]
    rw [if_neg (show ¬ i = t.VocabSize by omega)]
    exact hbyte i hi
  · intro i hi
    simp only [mergeStep] at hi ⊢
    by_cases hieq : i = t.VocabSize
    · exact ⟨_, if_pos hieq⟩
    · obtain ⟨bs, hbs⟩ := hpres i (by omega)
      exact ⟨bs, by rw [if_neg hieq]; exact hbs⟩
  · intro i hi
    simp only [mergeStep] at hi ⊢
    rw [if_neg (show ¬ i = t.VocabSize by omega)]
    exact habs i (by omega)
  · simp only [mergeStep]
    refine MergesOk_append t.Merges 256 hmok (Merge.mk a b t.VocabSize) ?_ ?_ ?_
    · show t.VocabSize = 256 + t.Merges.length
      omega
    · show a < 256 + t.Merges.length
      omega
    · show b < 256 + t.Merges.length
      omega
  · intro mg hmg
    simp only [mergeStep] at hmg ⊢
    rcases List.mem_append.mp hmg with hold | hnew
    · obtain ⟨k, hk⟩ := List.getElem?_of_mem hold
      have hklen : k < t.Merges.length := (List.getElem?_eq_some.mp hk).1
      obtain ⟨hres, hf, hs⟩ := MergesOk_getElem t.Merges 256 hmok k mg hk
      rw [if_neg (show ¬ mg.Result = t.VocabSize by omega),
        if_neg (show ¬ mg.First = t.VocabSize by omega),
        if_neg (show ¬ mg.Second = t.VocabSize by omega)]
      exact hmv mg hold
    · have hmg' : mg = Merge.mk a b t.VocabSize := by simpa using hnew
      rw [hmg']
      rw [if_pos (show (Merge.mk a b t.VocabSize).Result = t.VocabSize from rfl),
        if_neg (show ¬ (Merge.mk a b t.VocabSize).First = t.VocabSize by show ¬ a = _; omega),
        if_neg (show ¬ (Merge.mk a b t.VocabSize).Second = t.VocabSize by show ¬ b = _; omega)]

/-! Invariants carried through the training loop. -/

lemma trainLoop_counts {t : Tokenizer} {toks : List ℕ} {m : PairCount} {target : ℕ}
    {t' : Tokenizer} {toks' : List ℕ} {m' : PairCount}
    (h : TrainLoop t toks m target t' toks' m') (hm : m = countPairs toks) :
    m' = countPairs toks' := by
  induction h with
  | done _ => exact hm
  | exhausted _ _ => exact hm
  | step hlt hpos hmax hrec ih =>
    refine ih ?_
    rw [hm]
    exact applyMergeIncremental_counts _ _ _ _

lemma trainLoop_wf {t : Tokenizer} {toks : List ℕ} {m : PairCount} {target : ℕ}
    {t' : Tokenizer} {toks' : List ℕ} {m' : PairCount}
    (h : TrainLoop t toks m target t' toks' m') (hwf : WF t)
    (htoks : ∀ x ∈ toks, x < t.VocabSize) (hm : m = countPairs toks) :
    WF t' ∧ ∀ x ∈ toks', x < t'.VocabSize := by
  induction h with
  | done _ => exact ⟨hwf, htoks⟩
  | exhausted _ _ => exact ⟨hwf, htoks⟩
  | @step t toks m target a b t' toks' m' hlt hpos hmax hrec ih =>
    have hpos' : 0 < countPairs toks (a, b) := hm ▸ hpos
    obtain ⟨hamem, hbmem⟩ := countPairs_pos_mem hpos'
    have ha : a < t.VocabSize := htoks a hamem
    have hb : b < t.VocabSize := htoks b hbmem
    refine ih (wf_mergeStep hwf ha hb) ?_ ?_
    · intro x hx
      rw [applyMergeIncremental_fst] at hx
      rcases mem_applyMerge a b t.VocabSize toks x hx with hmem | rfl
      · show x < t.VocabSize + 1
        have := htoks x hmem
        omega
      · show t.VocabSize < t.VocabSize + 1
        omega
    · rw [hm]
      exact applyMergeIncremental_counts _ _ _ _

lemma trainLoop_vocab_le {t : Tokenizer} {toks : List ℕ} {m : PairCount} {target : ℕ}
    {t' : Tokenizer} {toks' : List ℕ} {m' : PairCount}
    (h : TrainLoop t toks m target t' toks' m') (hle : t.VocabSize ≤ target) :
    t'.VocabSize ≤ target := by
  induction h with
  | done _ => exact hle
  | exhausted _ _ => exact hle
  | step hlt hpos hmax hrec ih => exact ih (by show _ + 1 ≤ _; omega)

lemma trainLoop_final_zero {t : Tokenizer} {toks : List ℕ} {m : PairCount} {target : ℕ}
    {t' : Tokenizer} {toks' : List ℕ} {m' : PairCount}
    (h : TrainLoop t toks m target t' toks' m') (hlt : t'.VocabSize < target) :
    ∀ p, m' p = 0 := by
  induction h with
  | done hge => exact absurd hge (by omega)
  | exhausted _ hz => exact hz
  | step _ _ _ hrec ih => exact ih hlt

lemma trainLoop_merges_chain {t : Tokenizer} {toks : List ℕ} {m : PairCount} {target : ℕ}
    {t' : Tokenizer} {toks' : List ℕ} {m' : PairCount}
    (h : TrainLoop t toks m target t' toks' m') :
    ∃ L, t'.Merges = t.Merges ++ L := by
  induction h with
  | done _ => exact ⟨[], by simp⟩
  | exhausted _ _ => exact ⟨[], by simp⟩
  | @step t toks m target a b t' toks' m' hlt hpos hmax hrec ih =>
    obtain ⟨L, hL⟩ := ih
    exact ⟨⟨a, b, t.VocabSize⟩ :: L, by rw [hL]; simp [mergeStep]⟩

lemma trainLoop_len {t : Tokenizer} {toks : List ℕ} {m : PairCount} {target : ℕ}
    {t' : Tokenizer} {toks' : List ℕ} {m' : PairCount}
    (h : TrainLoop t toks m target t' toks' m') :
    t'.Merges.length + t.VocabSize = t.Merges.length + t'.VocabSize := by
  induction h with
  | done _ => rfl
  | exhausted _ _ => rfl
  | step hlt hpos hmax hrec ih =>
    simp only [mergeStep, List.length_append, List.length_cons, List.length_nil] at ih
    omega

lemma trainLoop_stop {t : Tokenizer} {toks : List ℕ} {m : PairCount} {target : ℕ}
    {t' : Tokenizer} {toks' : List ℕ} {m' : PairCount}
    (h : TrainLoop t toks m target t' toks' m') (hge : target ≤ t.VocabSize) :
    t' = t ∧ toks' = toks ∧ m' = m := by
  cases h with
  | done _ => exact ⟨rfl, rfl, rfl⟩
  | exhausted hlt _ => exact absurd hlt (by omega)
  | step hlt _ _ _ => exact absurd hlt (by omega)

/-- If the working sequence is long enough relative to the number of
merges still wanted, the pair supply cannot run out and training reaches
the target exactly. -/
lemma trainLoop_complete {t : Tokenizer} {toks : List ℕ} {m : PairCount} {target : ℕ}
    {t' : Tokenizer} {toks' : List ℕ} {m' : PairCount}
    (h : TrainLoop t toks m target t' toks' m') (hm : m = countPairs toks) :
    ∀ j, t.VocabSize + j + 1 = target → 2 ^ j + 1 ≤ toks.length → t'.VocabSize = target := by
  induction h with
  | done hge =>
    intro j hj _
    omega
  | @exhausted t toks m target hlt hz =>
    intro j hj hlen
    have h2 : 2 ≤ toks.length := by
      have hp : 0 < 2 ^ j := Nat.pos_pow_of_pos j (by omega)
      omega
    obtain ⟨x, y, rest, rfl⟩ : ∃ x y rest, toks = x :: y :: rest := by
      cases toks with
      | nil => simp at h2
      | cons x l' =>
        cases l' with
        | nil => simp at h2
        | cons y rest => exact ⟨x, y, rest, rfl⟩
    have hpos := countPairs_head_pos x y rest
    rw [← hm, hz (x, y)] at hpos
    exact absurd hpos (by simp)
  | @step t toks m target a b t' toks' m' hlt hpos hmax hrec ih =>
    intro j hj hlen
    have hml : toks.length ≤ 2 * (applyMergeIncremental toks a b t.VocabSize m).1.length := by
      rw [applyMergeIncremental_fst]
      exact applyMerge_length a b t.VocabSize toks
    have hm' : (applyMergeIncremental toks a b t.VocabSize m).2 =
        countPairs (applyMergeIncremental toks a b t.VocabSize m).1 := by
      rw [hm]
      exact applyMergeIncremental_counts _ _ _ _
    cases j with
    | zero =>
      have hge : target ≤ (mergeStep t a b).VocabSize := by
        show target ≤ t.VocabSize + 1
        omega
      obtain ⟨rfl, -, -⟩ := trainLoop_stop hrec hge
      show (mergeStep t a b).VocabSize = target
      show t.VocabSize + 1 = target
      omega
    | succ jj =>
      refine ih hm' jj ?_ ?_
      · show (mergeStep t a b).VocabSize + jj + 1 = target
        show t.VocabSize + 1 + jj + 1 = target
        omega
      · have hp : 2 ^ (jj + 1) = 2 * 2 ^ jj := by
          rw [Nat.pow_succ]
          omega
        omega

/-! Well-formedness of every reachable tokenizer. -/

lemma wf_New : WF New := by
  refine ⟨?_, ?_, ?_, ?_, ?_, ?_, ?_⟩
  · exact le_rfl
  · rfl
  · intro i hi
    exact if_pos hi
  · intro i hi
    exact ⟨[i], if_pos hi⟩
  · intro i hi
    have hi' : 256 ≤ i := hi
    exact if_neg (by omega)
  · trivial
  · intro mg hmg
    simp [New] at hmg

lemma reachable_wf {t : Tokenizer} (h : Reachable t) : WF t := by
  induction h with
  | base => exact wf_New
  | @train t text target t' hreach hbytes htrain ih =>
    cases htrain with
    | valid hgt hloop =>
      refine (trainLoop_wf hloop ih ?_ rfl).1
      intro x hx
      have hx' := hbytes x hx
      have := ih.size_ge
      omega

/-! Existence of a run of the training loop (totality of `Train`). -/

lemma exists_max_listed : ∀ (L : List (ℕ × ℕ)) (m : PairCount), (∃ q ∈ L, 0 < m q) →
    ∃ p ∈ L, 0 < m p ∧ ∀ q ∈ L, m q ≤ m p := by
  intro L
  induction L with
  | nil =>
    intro m hex
    simp at hex
  | cons a L' ih =>
    intro m hex
    by_cases hL' : ∃ q ∈ L', 0 < m q
    · obtain ⟨p, hpL, hppos, hpmax⟩ := ih m hL'
      by_cases hcmp : m a ≤ m p
      · refine ⟨p, by simp [hpL], hppos, ?_⟩
        intro q hq
        rcases List.mem_cons.mp hq with rfl | hq'
        · exact hcmp
        · exact hpmax q hq'
      · refine ⟨a, by simp, by omega, ?_⟩
        intro q hq
        rcases List.mem_cons.mp hq with rfl | hq'
        · exact le_rfl
        · have := hpmax q hq'
          omega
    · push_neg at hL'
      obtain ⟨q0, hq0mem, hq0pos⟩ := hex
      have hq0a : q0 = a := by
        rcases List.mem_cons.mp hq0mem with rfl | hq0'
        · rfl
        · exact absurd hq0pos (by have := hL' q0 hq0'; omega)
      subst hq0a
      refine ⟨q0, by simp, hq0pos, ?_⟩
      intro q hq
      rcases List.mem_cons.mp hq with rfl | hq'
      · exact le_rfl
      · have := hL' q hq'
        omega

lemma exists_argmax_of_counts (toks : List ℕ) (hx : ∃ q, 0 < countPairs toks q) :
    ∃ p, 0 < countPairs toks p ∧ ∀ q, countPairs toks q ≤ countPairs toks p := by
  obtain ⟨q0, hq0⟩ := hx
  obtain ⟨p, hpmem, hppos, hpmax⟩ :=
    exists_max_listed (toks.zip toks.tail) (countPairs toks)
      ⟨q0, mem_zip_of_countPairs_pos hq0, hq0⟩
  refine ⟨p, hppos, ?_⟩
  intro q
  by_cases hq : 0 < countPairs toks q
  · exact hpmax q (mem_zip_of_countPairs_pos hq)
  · omega

/-- For every start state and target there is a finishing run of the
training loop: the Go loop always terminates. -/
lemma trainLoop_total (target : ℕ) :
    ∀ (fuel : ℕ) (t : Tokenizer) (toks : List ℕ), target ≤ t.VocabSize + fuel →
      ∃ t' toks' m', TrainLoop t toks (countPairs toks) target t' toks' m' := by
  intro fuel
  induction fuel with
  | zero =>
    intro t toks hle
    exact ⟨t, toks, countPairs toks, TrainLoop.done (by omega)⟩
  | succ fuel ih =>
    intro t toks hle
    by_cases hV : target ≤ t.VocabSize
    · exact ⟨t, toks, countPairs toks, TrainLoop.done hV⟩
    · by_cases hz : ∀ p, countPairs toks p = 0
      · exact ⟨t, toks, countPairs toks, TrainLoop.exhausted (by omega) hz⟩
      · push_neg at hz
        obtain ⟨q1, hq1⟩ := hz
        obtain ⟨p, hppos, hpmax⟩ := exists_argmax_of_counts toks ⟨q1, by omega⟩
        obtain ⟨a, b⟩ := p
        obtain ⟨t', toks', m', D⟩ := ih (mergeStep t a b)
          (applyMergeIncremental toks a b t.VocabSize (countPairs toks)).1
          (by show target ≤ t.VocabSize + 1 + fuel; omega)
        rw [← applyMergeIncremental_counts] at D
        exact ⟨t', toks', m', TrainLoop.step (by omega) hppos hpmax D⟩

/-! Concrete training runs, used as witnesses. -/

/-- A complete run of the loop training `b"aaa"` to target 258. -/
lemma trainLoop_aaa :
    TrainLoop New [97, 97, 97] (countPairs [97, 97, 97]) 258 T2 [257] (countPairs [257]) := by
  have D2 : TrainLoop T2 [257] (countPairs [257]) 258 T2 [257] (countPairs [257]) :=
    TrainLoop.done (by decide)
  have D1 : TrainLoop T1 [256, 97] (countPairs [256, 97]) 258 T2 [257] (countPairs [257]) := by
    have e1 : (applyMergeIncremental [256, 97] 256 97 T1.VocabSize (countPairs [256, 97])).1 = [257] := by
      decide
    have e2 := applyMergeIncremental_counts [256, 97] 256 97 T1.VocabSize
    rw [e1] at e2
    refine TrainLoop.step (a := 256) (b := 97) (by decide) (by decide) ?_ ?_
    · have hv : countPairs [256, 97] (256, 97) = 1 := by decide
      rw [hv]
      exact countPairs_le_all _ 1 (by decide)
    · rw [e1, e2]
      exact D2
  have e1 : (applyMergeIncremental [97, 97, 97] 97 97 New.VocabSize (countPairs [97, 97, 97])).1 = [256, 97] := by
    decide
  have e2 := applyMergeIncremental_counts [97, 97, 97] 97 97 New.VocabSize
  rw [e1] at e2
  refine TrainLoop.step (a := 97) (b := 97) (by decide) (by decide) ?_ ?_
  · have hv : countPairs [97, 97, 97] (97, 97) = 2 := by decide
    rw [hv]
    exact countPairs_le_all _ 2 (by decide)
  · rw [e1, e2]
    exact D1

/-- `Train` on a fresh tokenizer with `b"aaa"` and target 258 succeeds and
produces `T2`. -/
lemma trainGo_aaa : TrainGo New [97, 97, 97] 258 none T2 :=
  TrainGo.valid (by omega) trainLoop_aaa

lemma reachable_T2 : Reachable T2 :=
  Reachable.train Reachable.base (by decide) trainGo_aaa

/-- A complete run of the loop training `b"aaabdaaabac"` to target 260
(one of the runs allowed by the tie-breaking nondeterminism). -/
lemma trainLoop_sample :
    TrainLoop New sampleText (countPairs sampleText) 260 T4 [259, 258, 97, 99]
      (countPairs [259, 258, 97, 99]) := by
  have D4 : TrainLoop T4 [259, 258, 97, 99] (countPairs [259, 258, 97, 99]) 260 T4
      [259, 258, 97, 99] (countPairs [259, 258, 97, 99]) :=
    TrainLoop.done (by decide)
  have D3 : TrainLoop T3 [258, 100, 258, 97, 99] (countPairs [258, 100, 258, 97, 99]) 260 T4
      [259, 258, 97, 99] (countPairs [259, 258, 97, 99]) := by
    have e1 : (applyMergeIncremental [258, 100, 258, 97, 99] 258 100 T3.VocabSize
        (countPairs [258, 100, 258, 97, 99])).1 = [259, 258, 97, 99] := by decide
    have e2 := applyMergeIncremental_counts [258, 100, 258, 97, 99] 258 100 T3.VocabSize
    rw [e1] at e2
    refine TrainLoop.step (a := 258) (b := 100) (by decide) (by decide) ?_ ?_
    · have hv : countPairs [258, 100, 258, 97, 99] (258, 100) = 1 := by decide
      rw [hv]
      exact countPairs_le_all _ 1 (by decide)
    · rw [e1, e2]
      exact D4
  have D2 : TrainLoop T2 [257, 98, 100, 257, 98, 97, 99] (countPairs [257, 98, 100, 257, 98, 97, 99])
      260 T4 [259, 258, 97, 99] (countPairs [259, 258, 97, 99]) := by
    have e1 : (applyMergeIncremental [257, 98, 100, 257, 98, 97, 99] 257 98 T2.VocabSize
        (countPairs [257, 98, 100, 257, 98, 97, 99])).1 = [258, 100, 258, 97, 99] := by decide
    have e2 := applyMergeIncremental_counts [257, 98, 100, 257, 98, 97, 99] 257 98 T2.VocabSize
    rw [e1] at e2
    refine TrainLoop.step (a := 257) (b := 98) (by decide) (by decide) ?_ ?_
    · have hv : countPairs [257, 98, 100, 257, 98, 97, 99] (257, 98) = 2 := by decide
      rw [hv]
      exact countPairs_le_all _ 2 (by decide)
    · rw [e1, e2]
      exact D3
  have D1 : TrainLoop T1 [256, 97, 98, 100, 256, 97, 98, 97, 99]
      (countPairs [256, 97, 98, 100, 256, 97, 98, 97, 99]) 260 T4 [259, 258, 97, 99]
      (countPairs [259, 258, 97, 99]) := by
    have e1 : (applyMergeIncremental [256, 97, 98, 100, 256, 97, 98, 97, 99] 256 97 T1.VocabSize
        (countPairs [256, 97, 98, 100, 256, 97, 98, 97, 99])).1 = [257, 98, 100, 257, 98, 97, 99] := by
      decide
    have e2 := applyMergeIncremental_counts [256, 97, 98, 100, 256, 97, 98, 97, 99] 256 97 T1.VocabSize
    rw [e1] at e2
    refine TrainLoop.step (a := 256) (b := 97) (by decide) (by decide) ?_ ?_
    · have hv : countPairs [256, 97, 98, 100, 256, 97, 98, 97, 99] (256, 97) = 2 := by decide
      rw [hv]
      exact countPairs_le_all _ 2 (by decide)
    · rw [e1, e2]
      exact D2
  have e1 : (applyMergeIncremental sampleText 97 97 New.VocabSize (countPairs sampleText)).1 =
      [256, 97, 98, 100, 256, 97, 98, 97, 99] := by decide
  have e2 := applyMergeIncremental_counts sampleText 97 97 New.VocabSize
  rw [e1] at e2
  refine TrainLoop.step (a := 97) (b := 97) (by decide) (by decide) ?_ ?_
  · have hv : countPairs sampleText (97, 97) = 4 := by decide
    rw [hv]
    exact countPairs_le_all _ 4 (by decide)
  · rw [e1, e2]
    exact D1

/-- `Train` on a fresh tokenizer with `b"aaabdaaabac"` and target 260 can
produce `T4`. -/
lemma trainGo_sample : TrainGo New sampleText 260 none T4 :=
  TrainGo.valid (by omega) trainLoop_sample

/-! Last helpers for `Encode`. -/

lemma Decode_encode_foldl (t : Tokenizer)
    (hmv : ∀ mg ∈ t.Merges, t.Vocabulary mg.Result =
      some ((t.Vocabulary mg.First).getD [] ++ (t.Vocabulary mg.Second).getD [])) :
    ∀ L : List Merge, (∀ mg ∈ L, mg ∈ t.Merges) → ∀ toks : List ℕ,
      Decode t (L.foldl (fun tokens mg => applyMerge tokens mg.First mg.Second mg.Result) toks) =
        Decode t toks := by
  intro L
  induction L with
  | nil =>
    intro _ toks
    rfl
  | cons mg L' ih =>
    intro hL toks
    show Decode t (L'.foldl _ (applyMerge toks mg.First mg.Second mg.Result)) = _
    rw [ih (fun m hm => hL m (by simp [hm])) (applyMerge toks mg.First mg.Second mg.Result)]
    exact Decode_applyMerge t mg.First mg.Second mg.Result (hmv mg (hL mg (by simp))) toks

lemma encode_foldl_mem (n : ℕ) :
    ∀ L : List Merge, (∀ mg ∈ L, mg.Result < n) → ∀ toks : List ℕ, (∀ x ∈ toks, x < n) →
      ∀ x ∈ L.foldl (fun tokens mg => applyMerge tokens mg.First mg.Second mg.Result) toks,
        x < n := by
  intro L
  induction L with
  | nil =>
    intro _ toks htoks x hx
    exact htoks x hx
  | cons mg L' ih =>
    intro hL toks htoks x hx
    refine ih (fun m hm => hL m (by simp [hm])) (applyMerge toks mg.First mg.Second mg.Result)
      ?_ x hx
    intro z hz
    rcases mem_applyMerge mg.First mg.Second mg.Result toks z hz with hmem | rfl
    · exact htoks z hmem
    · exact hL mg (by simp)

/-! The claims. -/

/-- C1: for every byte sequence `b` and every tokenizer reachable by
`New` optionally followed by successful `Train` calls,
`Decode (Encode b) = b`. -/
theorem claim_round_trip (t : Tokenizer) (h : Reachable t) (b : List ℕ)
    (hb : ∀ x ∈ b, x < 256) : Decode t (Encode t b) = b := by
  have hwf := reachable_wf h
  have hfold : Decode t (Encode t b) = Decode t b := by
    show Decode t (t.Merges.foldl _ b) = Decode t b
    exact Decode_encode_foldl t hwf.merge_vocab t.Merges (fun mg hm => hm) b
  rw [hfold]
  exact Decode_byteList t hwf.byte_vocab b hb

/-- Witness for C1: round trip evaluated on `New` and the bytes of `"Hi"`. -/
theorem claim_round_trip_witness :
    Decode New (Encode New [72, 105]) = [72, 105] :=
  claim_round_trip New Reachable.base [72, 105] (by decide)

/-- C2: for every token sequence, pair, merged id and counts map,
`applyMergeIncremental` returns the same rewritten sequence as
`applyMerge`; they differ only in the map. -/
theorem claim_applier_equivalence (tokens : List ℕ) (first second merged : ℕ)
    (pairCounts : PairCount) :
    (applyMergeIncremental tokens first second merged pairCounts).1 =
      applyMerge tokens first second merged :=
  applyMergeIncremental_fst tokens first second merged pairCounts

/-- C3: if the counts map exactly equals the adjacency-pair counts of the
sequence (zero-count pairs absent, i.e. count 0 in this representation),
then after `applyMergeIncremental` the mutated map exactly equals the
adjacency-pair counts of the rewritten sequence. -/
theorem claim_counts_invariant (tokens : List ℕ) (first second merged : ℕ)
    (m : PairCount) (hm : m = countPairs tokens) :
    (applyMergeIncremental tokens first second merged m).2 =
      countPairs (applyMergeIncremental tokens first second merged m).1 := by
  subst hm
  exact applyMergeIncremental_counts tokens first second merged

/-- Witness for C3: the invariant evaluated on `[97, 97, 97]` merging
`(97, 97) ↦ 256`. -/
theorem claim_counts_invariant_witness :
    (applyMergeIncremental [97, 97, 97] 97 97 256 (countPairs [97, 97, 97])).2 =
      countPairs (applyMergeIncremental [97, 97, 97] 97 97 256 (countPairs [97, 97, 97])).1 :=
  claim_counts_invariant [97, 97, 97] 97 97 256 (countPairs [97, 97, 97]) rfl

/-- C4: for `target ≤ 256` `Train` always returns the invalid-target
error with the tokenizer unchanged; for `target > 256` it never errors
(and some successful outcome exists). -/
theorem claim_invalid_target (t : Tokenizer) (text : List ℕ) (target : ℕ) :
    (target ≤ 256 →
      TrainGo t text target (some "target vocabulary size must be > 256") t ∧
      ∀ e t'', TrainGo t text target e t'' → (∃ msg, e = some msg) ∧ t'' = t) ∧
    (256 < target →
      (∃ t', TrainGo t text target none t') ∧
      ∀ e t'', TrainGo t text target e t'' → e = none) := by
  constructor
  · intro hle
    refine ⟨TrainGo.invalid hle, ?_⟩
    intro e t'' htr
    cases htr with
    | invalid _ => exact ⟨⟨_, rfl⟩, rfl⟩
    | valid hgt _ => omega
  · intro hgt
    constructor
    · obtain ⟨t', toks', m', D⟩ := trainLoop_total target target t text (by omega)
      exact ⟨t', TrainGo.valid hgt D⟩
    · intro e t'' htr
      cases htr with
      | invalid hle => omega
      | valid _ _ => rfl

/-- Witness for C4: target 256 rejected with `New` unchanged, target 300
accepted, on the bytes of `"test"`. -/
theorem claim_invalid_target_witness :
    TrainGo New [116, 101, 115, 116] 256 (some "target vocabulary size must be > 256") New ∧
    ∃ t', TrainGo New [116, 101, 115, 116] 300 none t' :=
  ⟨((claim_invalid_target New [116, 101, 115, 116] 256).1 (by omega)).1,
   ((claim_invalid_target New [116, 101, 115, 116] 300).2 (by omega)).1⟩

/-- C5: in every reachable tokenizer, merge rule `k` has result id
`256 + k`, strictly above both operand ids, and the number of rules is
`VocabSize - 256`. -/
theorem claim_merge_table_shape (t : Tokenizer) (h : Reachable t) :
    (∀ (k : ℕ) (mg : Merge), t.Merges[k]? = some mg →
      mg.Result = 256 + k ∧ mg.First < mg.Result ∧ mg.Second < mg.Result) ∧
    t.Merges.length = t.VocabSize - 256 := by
  have hwf := reachable_wf h
  constructor
  · intro k mg hk
    obtain ⟨hres, hf, hs⟩ := MergesOk_getElem t.Merges 256 hwf.merges_ok k mg hk
    exact ⟨hres, by omega, by omega⟩
  · have := hwf.size_eq
    omega

/-- Witness for C5: the invariant evaluated on the tokenizer trained from
`b"aaa"` to 258. -/
theorem claim_merge_table_shape_witness :
    T2.Merges.length = T2.VocabSize - 256 ∧
    ∀ mg : Merge, T2.Merges[1]? = some mg →
      mg.Result = 257 ∧ mg.First < mg.Result ∧ mg.Second < mg.Result := by
  have h := claim_merge_table_shape T2 reachable_T2
  refine ⟨h.2, ?_⟩
  intro mg hmg
  have h2 := h.1 1 mg hmg
  exact ⟨h2.1, h2.2.1, h2.2.2⟩

/-- Counterexample to C6 as stated: `T2` (VocabSize 258, reachable by a
successful train call) admits a second successful `Train` call with
target 257 > 256 after which `VocabSize = 258 > 257`. -/
theorem claim_vocab_bound_counterexample :
    TrainGo New [97, 97, 97] 258 none T2 ∧
    TrainGo T2 [97, 97, 97] 257 none T2 ∧
    256 < 257 ∧ ¬ T2.VocabSize ≤ 257 := by
  refine ⟨trainGo_aaa, ?_, by omega, by decide⟩
  exact TrainGo.valid (by omega) (TrainLoop.done (by decide))

/-- C6 (amended: additionally require `VocabSize ≤ target` before the
call, as holds in particular for the first training of a fresh
tokenizer): after a successful `Train`, `VocabSize ≤ target`, and it
equals `target` unless the loop hit a zero maximum pair count early — in
which case the final map is identically zero and the final working
sequence has length at most one. -/
theorem claim_vocab_bound_amended (t : Tokenizer) (text : List ℕ) (target : ℕ)
    (t' : Tokenizer) (h : TrainGo t text target none t') (hle : t.VocabSize ≤ target) :
    t'.VocabSize ≤ target ∧
    (t'.VocabSize = target ∨
      ∃ toks' m', TrainLoop t text (countPairs text) target t' toks' m' ∧
        (∀ p, m' p = 0) ∧ toks'.length ≤ 1) := by
  cases h with
  | valid hgt hloop =>
    have hle' := trainLoop_vocab_le hloop hle
    refine ⟨hle', ?_⟩
    by_cases heq : t'.VocabSize = target
    · exact Or.inl heq
    · have hz := trainLoop_final_zero hloop (by omega)
      have hc := trainLoop_counts hloop rfl
      refine Or.inr ⟨_, _, hloop, hz, ?_⟩
      refine length_le_one_of_countPairs_zero ?_
      intro p
      rw [← hc]
      exact hz p

/-- Witness for C6 (amended): evaluated on the successful training of
`b"aaa"` to 258 from `New`. -/
theorem claim_vocab_bound_amended_witness : T2.VocabSize ≤ 258 :=
  (claim_vocab_bound_amended New [97, 97, 97] 258 T2 trainGo_aaa (by decide)).1

/-- C7: `Decode` never fails — a known id contributes its expansion in
input order, an unknown id is silently skipped, and `Decode [999999]` on
a fresh tokenizer is empty. -/
theorem claim_decode_total :
    (∀ (t : Tokenizer) (id : ℕ) (bs rest : List ℕ), t.Vocabulary id = some bs →
      Decode t (id :: rest) = bs ++ Decode t rest) ∧
    (∀ (t : Tokenizer) (id : ℕ) (rest : List ℕ), t.Vocabulary id = none →
      Decode t (id :: rest) = Decode t rest) ∧
    Decode New [999999] = [] := by
  refine ⟨?_, ?_, ?_⟩
  · intro t id bs rest hid
    rw [Decode_cons, hid]
    rfl
  · intro t id rest hid
    rw [Decode_cons, hid]
    rfl
  · decide

/-- Witness for C7: the unknown id 999999 dropped on `New`, and a known
byte id contributing its expansion. -/
theorem claim_decode_total_witness :
    Decode New (999999 :: []) = Decode New [] ∧
    Decode New (97 :: []) = [97] ++ Decode New [] :=
  ⟨claim_decode_total.2.1 New 999999 [] (by decide),
   claim_decode_total.1 New 97 [97] [] (by decide)⟩

/-- C8: the appliers never double-merge overlapping matches in one pass:
`(a, a)` on `[a, a, a]` yields `[merged, a]` (for both appliers), and in
general a match consumes both tokens and the scan resumes after them. -/
theorem claim_no_double_merge (a merged first second : ℕ) (rest : List ℕ)
    (pairCounts : PairCount) :
    applyMerge [a, a, a] a a merged = [merged, a] ∧
    (applyMergeIncremental [a, a, a] a a merged pairCounts).1 = [merged, a] ∧
    applyMerge (first :: second :: rest) first second merged =
      merged :: applyMerge rest first second merged := by
  refine ⟨?_, ?_, ?_⟩
  · rw [applyMerge_cons₂, if_pos (And.intro rfl rfl), applyMerge_single]
  · rw [applyMergeIncremental_fst, applyMerge_cons₂, if_pos (And.intro rfl rfl),
      applyMerge_single]
  · rw [applyMerge_cons₂, if_pos (And.intro rfl rfl)]

/-- C9: every run of training a fresh tokenizer on `b"aaabdaaabac"` to
target 260 — whatever the tie-breaks in later rounds — produces exactly 4
merge rules, the first being `(97, 97, 256)`. -/
theorem claim_sample_training (t' : Tokenizer)
    (h : TrainGo New sampleText 260 none t') :
    t'.Merges.length = 4 ∧ t'.Merges[0]? = some (Merge.mk 97 97 256) := by
  cases h with
  | valid hgt hloop =>
    cases hloop with
    | done hge => exact absurd hge (by decide)
    | exhausted hlt hz =>
      have h4 : countPairs sampleText (97, 97) = 4 := by decide
      rw [hz (97, 97)] at h4
      exact absurd h4 (by decide)
    | @step _ _ _ _ a b _ _ _ hlt hpos hmax hrec =>
      have h97 : (a, b) = (97, 97) := by
        have h4 : countPairs sampleText (97, 97) = 4 := by decide
        have hmax97 := hmax (97, 97)
        rw [h4] at hmax97
        exact countPairs_ge_eq sampleText 4 (97, 97) (by omega) (by decide) (a, b) hmax97
      have ha : a = 97 := congrArg Prod.fst h97
      have hb : b = 97 := congrArg Prod.snd h97
      subst ha
      subst hb
      have e1 : (applyMergeIncremental sampleText 97 97 New.VocabSize (countPairs sampleText)).1 =
          [256, 97, 98, 100, 256, 97, 98, 97, 99] := by decide
      have e2 := applyMergeIncremental_counts sampleText 97 97 New.VocabSize
      rw [e1] at e2
      rw [e1, e2] at hrec
      have hfin : t'.VocabSize = 260 := by
        refine trainLoop_complete hrec rfl 2 ?_ ?_
        · decide
        · decide
      constructor
      · have hlen := trainLoop_len hrec
        have h1 : (mergeStep New 97 97).VocabSize = 257 := by decide
        have h2 : (mergeStep New 97 97).Merges.length = 1 := by decide
        omega
      · obtain ⟨L, hL⟩ := trainLoop_merges_chain hrec
        rw [hL]
        have hm1 : (mergeStep New 97 97).Merges = [Merge.mk 97 97 256] := by decide
        rw [hm1]
        simp

/-- Witness for C9: the claim evaluated on the concrete run producing `T4`. -/
theorem claim_sample_training_witness :
    T4.Merges.length = 4 ∧ T4.Merges[0]? = some (Merge.mk 97 97 256) :=
  claim_sample_training T4 trainGo_sample

/-- C10: every id output by `Encode` on a reachable tokenizer lies below
`VocabSize` and has a vocabulary entry. -/
theorem claim_encode_ids (t : Tokenizer) (h : Reachable t) (text : List ℕ)
    (htext : ∀ x ∈ text, x < 256) :
    ∀ id ∈ Encode t text, id < t.VocabSize ∧ ∃ bs, t.Vocabulary id = some bs := by
  have hwf := reachable_wf h
  have hlt : ∀ id ∈ Encode t text, id < t.VocabSize := by
    show ∀ id ∈ t.Merges.foldl _ text, id < t.VocabSize
    refine encode_foldl_mem t.VocabSize t.Merges ?_ text ?_
    · intro mg hmg
      obtain ⟨k, hk⟩ := List.getElem?_of_mem hmg
      have hklen : k < t.Merges.length := (List.getElem?_eq_some.mp hk).1
      obtain ⟨hres, -, -⟩ := MergesOk_getElem t.Merges 256 hwf.merges_ok k mg hk
      have := hwf.size_eq
      omega
    · intro x hx
      have h1 := htext x hx
      have h2 := hwf.size_ge
      omega
  intro id hid
  exact ⟨hlt id hid, hwf.present id (hlt id hid)⟩

/-- Witness for C10: evaluated on the tokenizer trained from `b"aaa"` to
258, encoding `b"aaa"`. -/
theorem claim_encode_ids_witness :
    257 ∈ Encode T2 [97, 97, 97] ∧ 257 < T2.VocabSize ∧ ∃ bs, T2.Vocabulary 257 = some bs := by
  have h := claim_encode_ids T2 reachable_T2 [97, 97, 97] (by decide) 257 (by decide)
  exact ⟨by decide, h.1, h.2⟩

end BPE
